import Mathlib

/-!
# StreamFlow video transcoder — verification of the spec's claims

Shallow embedding of the StreamFlow pipeline core:

* the Dispatcher (`src/consumer/src/lambda.ts`, `src/consumer/src/index.js`,
  the unnamed TypeScript poller): filename-contract validation, identity
  extraction, status-record keys, per-message queue handling;
* the Transcoding Job (`src/job/index.js`): master-playlist assembly,
  sprite-timeline generation, `formatTime`, the failure/cleanup protocol.

Strings are modelled as `List Char` (a JS string is its sequence of code
units; every string handled here is within the BMP so code points and code
units coincide).  JS numbers that hold integral values are modelled as `Nat`
/ `Int`; fractional video durations as `Rat`.
-/

namespace StreamFlow

/-- Characters of a Lean string literal, used to write concrete JS strings. -/
def chars (s : String) : List Char := s.data

/-! ## Node.js `path` semantics (posix)

`path.basename(p)` ignores trailing `'/'` separators and returns the part of
`p` after the last remaining `'/'`.  `path.parse(p).name` is that base with
its extension removed; the extension starts at the last `'.'` of the base
unless that dot is the base's first character or the base is exactly `".."`.
-/

/-- Drop trailing `'/'` characters (Node ignores trailing separators). -/
def dropTrailingSlashes (p : List Char) : List Char :=
  (p.reverse.dropWhile (· = '/')).reverse

/-- The part of `p` after the last `'/'`. -/
def afterLastSlash (p : List Char) : List Char :=
  (p.reverse.takeWhile (· ≠ '/')).reverse

/-- Node `path.posix.basename`. -/
def basename (p : List Char) : List Char :=
  afterLastSlash (dropTrailingSlashes p)

/-- `pat` occurs as a contiguous substring of `xs`. -/
def containsSub (pat xs : List Char) : Bool := decide (pat <:+: xs)

/-- Index of the last `'.'` in `b`, if any. -/
def lastDotIdx : List Char → Option Nat
  | [] => none
  | c :: t =>
    match lastDotIdx t with
    | some j => some (j + 1)
    | none => if c = '.' then some 0 else none

/-- Node `path.parse(base).name` for a slash-free `base`:
the base minus its extension.  There is no extension when the base has no
dot, when its only dot region starts at index `0` (e.g. `".bashrc"`), or when
the base is exactly `".."`. -/
def nameOfBase (b : List Char) : List Char :=
  if b = chars ".." then b
  else
    match lastDotIdx b with
    | none => b
    | some d => if d = 0 then b else b.take d

/-- Node `path.parse(p).name`: the basename minus its extension. -/
def parseName (p : List Char) : List Char :=
  nameOfBase (basename p)

/-! ## JS `String.prototype.split` on the `'###'` separator -/

/-- The structural separator `FILENAME_SEPARATOR = '###'`. -/
def sep : List Char := chars "###"

/-- Find the first occurrence of `sep` in `xs`: returns the part before it
and the part after it, or `none` when `sep` does not occur. -/
def breakOnSep : List Char → Option (List Char × List Char)
  | [] => none
  | c :: t =>
    if sep.isPrefixOf (c :: t) then some ([], (c :: t).drop sep.length)
    else match breakOnSep t with
      | none => none
      | some (a, b) => some (c :: a, b)

/-- If `breakOnSep` finds the separator, the remainder is shorter. -/
theorem breakOnSep_length {xs a b : List Char} (h : breakOnSep xs = some (a, b)) :
    b.length < xs.length := by
  induction xs generalizing a b with
  | nil => simp [breakOnSep] at h
  | cons c t ih =>
    rw [breakOnSep] at h
    by_cases hp : sep.isPrefixOf (c :: t)
    · simp only [hp, if_pos] at h
      cases h
      have : (c :: t).length = t.length + 1 := rfl
      have hd := List.length_drop sep.length (c :: t)
      simp [sep, chars] at hd ⊢
      omega
    · simp only [hp, if_neg, Bool.false_eq_true] at h
      cases hb : breakOnSep t with
      | none => rw [hb] at h; exact absurd h (by simp)
      | some p =>
        rw [hb] at h
        cases p with
        | mk a' b' =>
          simp at h
          obtain ⟨ha, hbeq⟩ := h
          have := ih hb
          subst hbeq
          simp
          omega

/-- JS `s.split('###')`: split on every (leftmost, non-overlapping)
occurrence of the separator. -/
def jsSplit : List Char → List (List Char)
  | [] => [[]]
  | '#' :: '#' :: '#' :: rest => [] :: jsSplit rest
  | c :: rest =>
    match jsSplit rest with
    | [] => [[c]]
    | a :: as => (c :: a) :: as

/-! ## Filename Contract Validator (`isValidVideoPath` + separator check) -/

/-- A control character: code point below `0x20`
(the regex class `[\x00-\x1F]`). -/
def isControl (c : Char) : Bool := c.toNat < 0x20

/-- A character of the allow-list `[a-zA-Z0-9\-_\/.#]`. -/
def isAllowed (c : Char) : Bool :=
  ('a' ≤ c ∧ c ≤ 'z') ∨ ('A' ≤ c ∧ c ≤ 'Z') ∨ ('0' ≤ c ∧ c ≤ '9') ∨
    c = '-' ∨ c = '_' ∨ c = '/' ∨ c = '.' ∨ c = '#'

/-- `isValidVideoPath` from `src/consumer/src/lambda.ts` (also in the
poller): reject when `/[\x00-\x1F]|\.\.\/|\.\.\\/i` matches (the `i` flag is
vacuous, the patterns contain no letters), then require the whole key to
match `/^[a-zA-Z0-9\-_\/.#]+$/`. -/
def isValidVideoPath (p : List Char) : Bool :=
  if p.any isControl || containsSub (chars "../") p || containsSub (chars "..\\") p then
    false
  else
    !p.isEmpty && p.all isAllowed

/-- The Dispatcher's combined acceptance check on a decoded key
(`processMessage`): `isValidVideoPath(videoKey)` and
`path.basename(videoKey).includes('###')`. -/
def acceptsKey (p : List Char) : Bool :=
  isValidVideoPath p && containsSub sep (basename p)


/-! ## Identity extraction (Dispatcher) and the Job's record key -/

/-- The Dispatcher's identity extraction (`processMessage`):
`const [username, videoNameWithExt] = filename.split(FILENAME_SEPARATOR)`
with `filename = path.basename(videoKey)`.  JS destructuring takes the first
two elements of the split. -/
def dispatcherIdentity (key : List Char) : List Char × List Char :=
  ((jsSplit (basename key)).getD 0 [], (jsSplit (basename key)).getD 1 [])

/-- `username` bound by the Dispatcher for a key. -/
def dispatcherOwner (key : List Char) : List Char := (dispatcherIdentity key).1

/-- `videoNameWithExt` bound by the Dispatcher for a key (the claim's
`title`, extension still attached). -/
def dispatcherTitleRaw (key : List Char) : List Char := (dispatcherIdentity key).2

/-- The Dispatcher's record key
`${username}###${videoNameBase}-${timestamp}` where
`videoNameBase = path.parse(videoNameWithExt).name`. -/
def dispatcherVideoId (key : List Char) (timestamp : Nat) : List Char :=
  dispatcherOwner key ++ sep ++ parseName (dispatcherTitleRaw key) ++
    '-' :: (Nat.repr timestamp).data

/-- The Job's record key (`src/job/index.js`):
`const videoId = path.parse(VIDEO_KEY).name`. -/
def jobVideoId (key : List Char) : List Char := parseName key

/-! ### Bridging `jsSplit` and `breakOnSep` -/

/-- `jsSplit` never returns the empty list. -/
theorem jsSplit_ne_nil (xs : List Char) : jsSplit xs ≠ [] := by
  induction xs using jsSplit.induct with
  | case1 => simp [jsSplit]
  | case2 rest ih => simp [jsSplit]
  | case3 c rest hne hnil ih => exact absurd hnil ih
  | case4 c rest hne a as hcons ih =>
    rw [jsSplit.eq_3 c rest hne, hcons]
    simp

/-- The separator is a prefix of `'#' :: '#' :: '#' :: rest`. -/
theorem sep_isPrefixOf_cons3 (rest : List Char) :
    sep.isPrefixOf ('#' :: '#' :: '#' :: rest) = true := by
  simp [sep, chars, List.isPrefixOf]

/-- A successful `breakOnSep` decomposes the input around the separator. -/
theorem breakOnSep_append {xs a b : List Char} (h : breakOnSep xs = some (a, b)) :
    xs = a ++ sep ++ b := by
  induction xs generalizing a b with
  | nil => simp [breakOnSep] at h
  | cons c t ih =>
    rw [breakOnSep] at h
    by_cases hp : sep.isPrefixOf (c :: t) = true
    · rw [if_pos hp] at h
      rw [List.isPrefixOf_iff_prefix] at hp
      obtain ⟨r, hr⟩ := hp
      injection h with h
      obtain ⟨ha, hb⟩ := Prod.mk.inj h
      subst ha
      subst hb
      conv_lhs => rw [← hr]
      rw [← hr]
      simp [List.drop_left]
    · rw [if_neg hp] at h
      cases hb : breakOnSep t with
      | none => rw [hb] at h; exact Option.noConfusion h
      | some p =>
        obtain ⟨a', b'⟩ := p
        rw [hb] at h
        injection h with h
        obtain ⟨ha, hbe⟩ := Prod.mk.inj h
        subst ha
        subst hbe
        simp only [List.cons_append]
        rw [← ih hb]


/-- `breakOnSep` fails exactly when the separator does not occur. -/
theorem breakOnSep_eq_none_iff {xs : List Char} :
    breakOnSep xs = none ↔ ¬ sep <:+: xs := by
  constructor
  · intro h hin
    induction xs with
    | nil => exact absurd hin (by decide)
    | cons c t ih =>
      rw [breakOnSep] at h
      by_cases hp : sep.isPrefixOf (c :: t) = true
      · rw [if_pos hp] at h; exact Option.noConfusion h
      · rw [if_neg hp] at h
        rcases List.infix_cons_iff.mp hin with hpre | hinf
        · exact hp (List.isPrefixOf_iff_prefix.mpr hpre)
        · cases hb : breakOnSep t with
          | none => exact ih hb hinf
          | some p => obtain ⟨a, b⟩ := p; rw [hb] at h; exact Option.noConfusion h
  · intro hni
    cases hb : breakOnSep xs with
    | none => rfl
    | some p =>
      obtain ⟨a, b⟩ := p
      exact absurd ⟨a, b, (breakOnSep_append hb).symm⟩ hni

/-- When the separator does not occur, `jsSplit` returns the whole input. -/
theorem jsSplit_of_breakOnSep_none {xs : List Char} (h : breakOnSep xs = none) :
    jsSplit xs = [xs] := by
  induction xs using jsSplit.induct with
  | case1 => rfl
  | case2 rest ih =>
    rw [breakOnSep, if_pos (sep_isPrefixOf_cons3 rest)] at h
    exact Option.noConfusion h
  | case3 c rest hne hnil ih => exact absurd hnil (jsSplit_ne_nil rest)
  | case4 c rest hne a as hcons ih =>
    rw [breakOnSep] at h
    by_cases hp : sep.isPrefixOf (c :: rest) = true
    · rw [if_pos hp] at h; exact Option.noConfusion h
    · rw [if_neg hp] at h
      cases hb : breakOnSep rest with
      | some p => obtain ⟨a', b'⟩ := p; rw [hb] at h; exact Option.noConfusion h
      | none =>
        have hr := ih hb
        rw [jsSplit.eq_3 c rest hne, hcons]
        rw [hcons] at hr
        injection hr with h1 h2
        subst h1
        subst h2
        rfl

/-- `jsSplit` peels off the part before the first separator occurrence. -/
theorem jsSplit_of_breakOnSep_some {xs a b : List Char}
    (h : breakOnSep xs = some (a, b)) :
    jsSplit xs = a :: jsSplit b := by
  induction xs using jsSplit.induct generalizing a b with
  | case1 => simp [breakOnSep] at h
  | case2 rest ih =>
    rw [breakOnSep, if_pos (sep_isPrefixOf_cons3 rest)] at h
    injection h with h
    obtain ⟨ha, hb⟩ := Prod.mk.inj h
    subst ha
    have : List.drop sep.length ('#' :: '#' :: '#' :: rest) = rest := rfl
    rw [this] at hb
    subst hb
    exact jsSplit.eq_2 rest
  | case3 c rest hne hnil ih => exact absurd hnil (jsSplit_ne_nil rest)
  | case4 c rest hne a' as hcons ih =>
    rw [breakOnSep] at h
    have hp : sep.isPrefixOf (c :: rest) = false := by
      by_contra hb
      rw [Bool.not_eq_false, List.isPrefixOf_iff_prefix] at hb
      obtain ⟨r, hr⟩ := hb
      have hc : c = '#' := by
        have := congrArg (List.getD · 0 ' ') hr
        simpa [sep, chars] using this.symm
      have hrest : rest = '#' :: '#' :: r := by
        have := congrArg List.tail hr
        simpa [sep, chars] using this.symm
      exact hne r hc hrest
    rw [if_neg (by simp [hp])] at h
    cases hb : breakOnSep rest with
    | none => rw [hb] at h; exact Option.noConfusion h
    | some p =>
      obtain ⟨a2, b2⟩ := p
      rw [hb] at h
      injection h with h
      obtain ⟨ha, hbe⟩ := Prod.mk.inj h
      subst ha
      subst hbe
      have hr := ih hb
      rw [jsSplit.eq_3 c rest hne, hcons]
      rw [hcons] at hr
      injection hr with h1 h2
      subst h1
      rw [h2]


/-- The part of `xs` before its first separator occurrence (all of `xs` when
the separator does not occur): the first component of a JS split. -/
def firstPart (xs : List Char) : List Char :=
  match breakOnSep xs with
  | none => xs
  | some (a, _) => a

/-- `lastDotIdx` returns an in-range index holding `'.'`. -/
theorem lastDotIdx_spec {b : List Char} {d : Nat} (h : lastDotIdx b = some d) :
    d < b.length ∧ b[d]? = some '.' := by
  induction b generalizing d with
  | nil => simp [lastDotIdx] at h
  | cons c t ih =>
    rw [lastDotIdx] at h
    cases hj : lastDotIdx t with
    | some j =>
      rw [hj] at h
      injection h with h
      subst h
      obtain ⟨h1, h2⟩ := ih hj
      refine ⟨by simpa using h1, ?_⟩
      rw [List.getElem?_cons_succ]
      exact h2
    | none =>
      rw [hj] at h
      by_cases hc : c = '.'
      · rw [if_pos hc] at h
        injection h with h
        subst h
        subst hc
        simp
      · rw [if_neg hc] at h
        exact Option.noConfusion h

/-- `nameOfBase` either keeps the base or truncates it at an interior
last-dot position. -/
theorem nameOfBase_cases (b : List Char) :
    nameOfBase b = b ∨
      ∃ d, 1 ≤ d ∧ d < b.length ∧ b[d]? = some '.' ∧
        nameOfBase b = b.take d := by
  rw [nameOfBase]
  by_cases hb : b = chars ".."
  · rw [if_pos hb]; exact Or.inl rfl
  · rw [if_neg hb]
    cases hd : lastDotIdx b with
    | none => exact Or.inl rfl
    | some d =>
      by_cases h0 : d = 0
      · subst h0
        exact Or.inl (by simp)
      · right
        obtain ⟨h1, h2⟩ := lastDotIdx_spec hd
        exact ⟨d, by omega, h1, h2, by simp [h0]⟩

/-- An accepted key's basename splits at a separator occurrence. -/
theorem acceptsKey_breakOnSep {key : List Char} (h : acceptsKey key = true) :
    ∃ u rest, breakOnSep (basename key) = some (u, rest) := by
  rw [acceptsKey, Bool.and_eq_true] at h
  have hin : sep <:+: basename key := by
    have := h.2
    rwa [containsSub, decide_eq_true_eq] at this
  cases hb : breakOnSep (basename key) with
  | none => exact absurd hin (breakOnSep_eq_none_iff.mp hb)
  | some p => obtain ⟨u, r⟩ := p; exact ⟨u, r, rfl⟩


/-- The Dispatcher's `username` is the part before the first separator. -/
theorem dispatcherOwner_eq {key u rest : List Char}
    (h : breakOnSep (basename key) = some (u, rest)) :
    dispatcherOwner key = u := by
  rw [dispatcherOwner, dispatcherIdentity, jsSplit_of_breakOnSep_some h]
  rfl

/-- The Dispatcher's `videoNameWithExt` is the part of the remainder before
the next separator occurrence. -/
theorem dispatcherTitleRaw_eq {key u rest : List Char}
    (h : breakOnSep (basename key) = some (u, rest)) :
    dispatcherTitleRaw key = firstPart rest := by
  rw [dispatcherTitleRaw, dispatcherIdentity, jsSplit_of_breakOnSep_some h,
    firstPart]
  cases hb : breakOnSep rest with
  | none => rw [jsSplit_of_breakOnSep_none hb]; rfl
  | some p =>
    obtain ⟨a, b⟩ := p
    rw [jsSplit_of_breakOnSep_some hb]
    rfl


/-- A basename contains no `'/'`. -/
theorem basename_no_slash {p : List Char} {c : Char} (h : c ∈ basename p) :
    c ≠ '/' := by
  rw [basename, afterLastSlash, List.mem_reverse] at h
  have := List.mem_takeWhile_imp h
  simpa using this

/-- On slash-free input, `basename` is the identity. -/
theorem basename_of_no_slash {p : List Char} (h : ∀ c ∈ p, c ≠ '/') :
    basename p = p := by
  have hd : dropTrailingSlashes p = p := by
    rw [dropTrailingSlashes]
    have : p.reverse.dropWhile (· = '/') = p.reverse := by
      rw [List.dropWhile_eq_self_iff]
      intro hl hc
      have hm : p.reverse.get ⟨0, hl⟩ ∈ p := by
        rw [← List.mem_reverse]
        exact List.get_mem _ 0 hl
      have := h _ hm
      rw [decide_eq_true_eq] at hc
      exact this hc
    rw [this, List.reverse_reverse]
  rw [basename, hd, afterLastSlash]
  have : p.reverse.takeWhile (· ≠ '/') = p.reverse := by
    rw [List.takeWhile_eq_self_iff]
    intro c hc
    have := h c (List.mem_reverse.mp hc)
    simpa using this
  rw [this, List.reverse_reverse]

/-- On slash-free input, `path.parse(p).name` is just extension stripping. -/
theorem parseName_of_no_slash {p : List Char} (h : ∀ c ∈ p, c ≠ '/') :
    parseName p = nameOfBase p := by
  rw [parseName, basename_of_no_slash h]

/-- Every character of `firstPart xs` occurs in `xs`. -/
theorem mem_of_mem_firstPart {xs : List Char} {c : Char}
    (h : c ∈ firstPart xs) : c ∈ xs := by
  rw [firstPart] at h
  cases hb : breakOnSep xs with
  | none => rwa [hb] at h
  | some p =>
    obtain ⟨a, b⟩ := p
    rw [hb] at h
    rw [breakOnSep_append hb]
    simp only [List.mem_append]
    exact Or.inl (Or.inl h)


/-! ## Claim C1 — the Filename Contract Validator -/

/-- C1: the Dispatcher accepts a URL-decoded object key if and only if the
key has no control character (code point below `0x20`) and no traversal
sequence `../` or `..\` (case-insensitivity is vacuous for these patterns),
every character is in the allow-list (alphanumeric, `-`, `_`, `.`, `/`,
`#`), and the final path segment contains the structural separator `###`.
(For the empty key both sides reject: the allow-list regex requires at least
one character, and the empty basename has no separator.) -/
theorem c1_validator_accepts_iff (p : List Char) :
    acceptsKey p = true ↔
      ((∀ c ∈ p, isControl c = false) ∧
        ¬ (chars "../") <:+: p ∧ ¬ (chars "..\\") <:+: p ∧
        (∀ c ∈ p, isAllowed c = true) ∧
        sep <:+: basename p) := by
  by_cases hp : p = []
  · subst hp
    constructor
    · intro h; exact absurd h (by decide)
    · rintro ⟨-, -, -, -, h⟩
      exact absurd h (by decide)
  · by_cases hbad :
      (p.any isControl || containsSub (chars "../") p || containsSub (chars "..\\") p) = true
    · have hval : isValidVideoPath p = false := by
        rw [isValidVideoPath, if_pos hbad]
      constructor
      · intro h
        rw [acceptsKey, hval] at h
        simp at h
      · rintro ⟨h1, h2, h3, h4, h5⟩
        rw [Bool.or_eq_true, Bool.or_eq_true] at hbad
        rcases hbad with (hc | hi) | hi
        · rw [List.any_eq_true] at hc
          obtain ⟨c, hc, hcc⟩ := hc
          rw [h1 c hc] at hcc
          exact absurd hcc (by simp)
        · rw [containsSub, decide_eq_true_eq] at hi
          exact absurd hi h2
        · rw [containsSub, decide_eq_true_eq] at hi
          exact absurd hi h3
    · have hval : isValidVideoPath p = (!p.isEmpty && p.all isAllowed) := by
        rw [isValidVideoPath, if_neg hbad]
      rw [Bool.not_eq_true, Bool.or_eq_false_iff, Bool.or_eq_false_iff] at hbad
      obtain ⟨⟨hc, h1⟩, h2⟩ := hbad
      rw [containsSub, decide_eq_false_iff_not] at h1 h2
      rw [List.any_eq_false] at hc
      have hne : p.isEmpty = false := by
        cases p with
        | nil => exact absurd rfl hp
        | cons c t => rfl
      rw [acceptsKey, hval, hne]
      simp only [Bool.and_eq_true, List.all_eq_true, containsSub, decide_eq_true_eq,
        Bool.not_false, Bool.true_and]
      constructor
      · rintro ⟨ha, hs⟩
        refine ⟨?_, h1, h2, ha, hs⟩
        intro c hcp
        have := hc c hcp
        rwa [Bool.not_eq_true] at this
      · rintro ⟨-, -, -, ha, hs⟩
        exact ⟨ha, hs⟩

/-! ## Claim C3 — Dispatcher and Job status-record keys never coincide -/

/-- C3: for every key the Dispatcher accepts and every timestamp, the record
key the Dispatcher writes (`username###videoNameBase-timestamp`) differs
from the record key the Job's terminal status update targets
(`path.parse(VIDEO_KEY).name`).  Proof idea: at the index right after
`username ++ "###" ++ videoNameBase` the Dispatcher's key holds `'-'`,
while the Job's key (the basename, possibly truncated at its last dot)
holds `'.'` or `'#'` there, or has already ended. -/
theorem c3_record_keys_never_collide (key : List Char) (t : Nat)
    (h : acceptsKey key = true) :
    dispatcherVideoId key t ≠ jobVideoId key := by
  obtain ⟨u, rest, hbs⟩ := acceptsKey_breakOnSep h
  have hf : basename key = u ++ sep ++ rest := breakOnSep_append hbs
  have howner := dispatcherOwner_eq hbs
  have htitle := dispatcherTitleRaw_eq hbs
  have hp1 : parseName (firstPart rest) = nameOfBase (firstPart rest) := by
    apply parseName_of_no_slash
    intro c hc
    apply basename_no_slash (p := key)
    rw [hf]
    have hcr : c ∈ rest := mem_of_mem_firstPart hc
    simp only [List.mem_append]
    exact Or.inr hcr
  set b := nameOfBase (firstPart rest) with hbdef
  set M := u.length + 3 + b.length with hMdef
  have hseplen : sep.length = 3 := rfl
  -- the Dispatcher's id has '-' at index M
  have h1 : (dispatcherVideoId key t)[M]? = some '-' := by
    rw [dispatcherVideoId, howner, htitle, hp1]
    have hassoc : u ++ sep ++ b ++ '-' :: (Nat.repr t).data
        = (u ++ sep ++ b) ++ ('-' :: (Nat.repr t).data) := by
      simp [List.append_assoc]
    rw [hassoc]
    have hlen : (u ++ sep ++ b).length = M := by
      rw [List.length_append, List.length_append, hseplen]
    rw [List.getElem?_append_right (le_of_eq hlen), hlen]
    simp
  -- the accepted key's basename does not have '-' at index M
  have hfM : (basename key)[M]? ≠ some '-' := by
    rw [hf]
    have hle : (u ++ sep).length ≤ M := by
      rw [List.length_append, hseplen]
      omega
    rw [List.getElem?_append_right hle]
    have hidx : M - (u ++ sep).length = b.length := by
      rw [List.length_append, hseplen]
      omega
    rw [hidx]
    cases hrest : breakOnSep rest with
    | none =>
      have hfp : firstPart rest = rest := by rw [firstPart, hrest]
      rw [hfp] at hbdef
      rcases nameOfBase_cases rest with hc | ⟨d, hd1, hd2, hd3, hc⟩
      · rw [hbdef, hc]
        rw [List.getElem?_eq_none le_rfl]
        simp
      · rw [hbdef, hc]
        have : (List.take d rest).length = d := by
          rw [List.length_take]
          omega
        rw [this, hd3]
        decide
    | some p =>
      obtain ⟨p1, rest2⟩ := p
      have hfp : firstPart rest = p1 := by rw [firstPart, hrest]
      rw [hfp] at hbdef
      have hrdec : rest = p1 ++ sep ++ rest2 := breakOnSep_append hrest
      rcases nameOfBase_cases p1 with hc | ⟨d, hd1, hd2, hd3, hc⟩
      · rw [hbdef, hc, hrdec]
        rw [@List.getElem?_append Char (p1 ++ sep) rest2 _]
        have hlt : p1.length < (p1 ++ sep).length := by
          rw [List.length_append, hseplen]
          omega
        rw [if_pos hlt]
        rw [List.getElem?_append_right (le_refl p1.length), Nat.sub_self]
        decide
      · rw [hbdef, hc, hrdec]
        have hbl : (List.take d p1).length = d := by
          rw [List.length_take]
          omega
        rw [hbl]
        rw [@List.getElem?_append Char (p1 ++ sep) rest2 _]
        have hlt : d < (p1 ++ sep).length := by
          rw [List.length_append, hseplen]
          omega
        rw [if_pos hlt]
        rw [@List.getElem?_append Char p1 sep _, if_pos hd2, hd3]
        decide
  -- the Job's id is the basename or a prefix of it
  have h2 : (jobVideoId key)[M]? ≠ some '-' := by
    rw [jobVideoId, parseName]
    rcases nameOfBase_cases (basename key) with hc | ⟨D, hD1, hD2, hD3, hc⟩
    · rw [hc]
      exact hfM
    · rw [hc, List.getElem?_take]
      split
      · exact hfM
      · simp
  intro heq
  rw [heq] at h1
  exact h2 h1

/-- Witness for C3 at a concrete accepted key and timestamp. -/
theorem c3_witness :
    acceptsKey (chars "videos/alice###myclip.mp4") = true ∧
      dispatcherVideoId (chars "videos/alice###myclip.mp4") 1700000000000 ≠
        jobVideoId (chars "videos/alice###myclip.mp4") :=
  ⟨by decide, c3_record_keys_never_collide _ 1700000000000 (by decide)⟩


/-! ## Claim C4 — identity extraction from an accepted key -/

/-- C4 counterexample: for the accepted key
`videos/alice###my###clip.mp4`, the remainder after the first separator is
`my###clip.mp4`, but the Dispatcher's `videoNameWithExt` (the claim's
`title`) is only `my`: JS `split` cuts at every separator occurrence and
destructuring keeps the second field, so the title is not "the entire
remainder after the first separator". -/
theorem c4_counterexample :
    acceptsKey (chars "videos/alice###my###clip.mp4") = true ∧
      breakOnSep (basename (chars "videos/alice###my###clip.mp4")) =
        some (chars "alice", chars "my###clip.mp4") ∧
      dispatcherTitleRaw (chars "videos/alice###my###clip.mp4") = chars "my" ∧
      dispatcherTitleRaw (chars "videos/alice###my###clip.mp4") ≠
        chars "my###clip.mp4" := by
  decide

/-- C4 amended: for every accepted key, `owner` is the text before the first
separator occurrence in the final path segment, and `title` is the text
from after that occurrence up to (not including) the next separator
occurrence — the entire remainder only when the separator occurs exactly
once. -/
theorem c4_owner_title_extraction (key : List Char)
    (h : acceptsKey key = true) :
    ∃ rest, breakOnSep (basename key) = some (dispatcherOwner key, rest) ∧
      dispatcherTitleRaw key = firstPart rest := by
  obtain ⟨u, rest, hbs⟩ := acceptsKey_breakOnSep h
  refine ⟨rest, ?_, dispatcherTitleRaw_eq hbs⟩
  rw [dispatcherOwner_eq hbs]
  exact hbs

/-- Witness for the amended C4 at the spec's own example key. -/
theorem c4_witness :
    acceptsKey (chars "videos/alice###myclip.mp4") = true ∧
      (∃ rest,
        breakOnSep (basename (chars "videos/alice###myclip.mp4")) =
          some (dispatcherOwner (chars "videos/alice###myclip.mp4"), rest) ∧
        dispatcherTitleRaw (chars "videos/alice###myclip.mp4") =
          firstPart rest) :=
  ⟨by decide, c4_owner_title_extraction _ (by decide)⟩


/-! ## Transcoding Job (`src/job/index.js`): rendition catalog, bitrate
parsing and the master playlist -/

/-- One entry of the `RESOLUTIONS` catalog. -/
structure Resolution where
  name : List Char
  width : Nat
  height : Nat
  bv : List Char
  ba : List Char
deriving DecidableEq

/-- The fixed rendition catalog `RESOLUTIONS`. -/
def RESOLUTIONS : List Resolution :=
  [⟨chars "360p", 640, 360, chars "800k", chars "96k"⟩,
   ⟨chars "480p", 854, 480, chars "1400k", chars "128k"⟩,
   ⟨chars "720p", 1280, 720, chars "2800k", chars "128k"⟩]

/-- JS `s.replace('k', '000')`: replace the first `'k'` only. -/
def replaceFirstK : List Char → List Char
  | [] => []
  | c :: t => if c = 'k' then '0' :: '0' :: '0' :: t else c :: replaceFirstK t

/-- Decimal value of a digit run. -/
def digitsVal (ds : List Char) : Nat :=
  ds.foldl (fun a c => a * 10 + (c.toNat - 48)) 0

/-- JS `parseInt(s, 10)`: skip whitespace, optional sign, then the longest
leading digit run; `none` models `NaN`. -/
def jsParseInt (s : List Char) : Option Int :=
  let s1 := s.dropWhile (fun c => c = ' ' ∨ c = '\t' ∨ c = '\n' ∨ c = '\r')
  let core : List Char → Option Nat := fun u =>
    let ds := u.takeWhile (fun c => '0' ≤ c ∧ c ≤ '9')
    if ds.isEmpty then none else some (digitsVal ds)
  match s1 with
  | '-' :: t => (core t).map (fun n => -(n : Int))
  | '+' :: t => (core t).map (fun n => (n : Int))
  | t => (core t).map (fun n => (n : Int))

/-- `parseInt(res.bv.replace('k', '000'), 10)` from `createMasterPlaylist`. -/
def parsedBitrate (s : List Char) : Option Int :=
  jsParseInt (replaceFirstK s)

/-- `bandwidth = parseInt(bv...) + parseInt(ba...)`; `none` models the `NaN`
that JS addition would propagate. -/
def bandwidthOf (r : Resolution) : Option Int :=
  match parsedBitrate r.bv, parsedBitrate r.ba with
  | some a, some b => some (a + b)
  | _, _ => none

/-- Decimal digits of a natural number (fuel-based so that it reduces in
the kernel); `natDigitsAux (n+1) n` never exhausts its fuel. -/
def natDigitsAux : Nat → Nat → List Char
  | 0, _ => []
  | fuel + 1, n =>
    if n < 10 then [Char.ofNat (48 + n)]
    else natDigitsAux fuel (n / 10) ++ [Char.ofNat (48 + n % 10)]

/-- JS `Number.prototype.toString` for a non-negative integral number. -/
def natText (n : Nat) : List Char := natDigitsAux (n + 1) n

/-- JS string interpolation of an integral number. -/
def intText (n : Int) : List Char :=
  if n < 0 then '-' :: natText n.natAbs else natText n.toNat

/-- The interpolated `${bandwidth}` (prints `NaN` when parsing failed). -/
def bandwidthText (r : Resolution) : List Char :=
  match bandwidthOf r with
  | none => chars "NaN"
  | some n => intText n

/-- One iteration of the `createMasterPlaylist` loop: the stream-info line
and the rendition-playlist path line, each `'\n'`-terminated. -/
def playlistBlock (r : Resolution) : List Char :=
  chars "#EXT-X-STREAM-INF:BANDWIDTH=" ++ bandwidthText r ++
    chars ",RESOLUTION=" ++ natText r.width ++ 'x' :: natText r.height ++
    '\n' :: r.name ++ chars "/playlist.m3u8\n"

/-- The full text written by `createMasterPlaylist`. -/
def createMasterPlaylist (resolutions : List Resolution) : List Char :=
  chars "#EXTM3U\n#EXT-X-VERSION:3\n" ++
    (resolutions.map playlistBlock).foldr (· ++ ·) []

/-- Split a text on `'\n'`. -/
def splitLines : List Char → List (List Char)
  | [] => [[]]
  | '\n' :: t => [] :: splitLines t
  | c :: t =>
    match splitLines t with
    | [] => [[c]]
    | a :: as => (c :: a) :: as

/-- The lines of a text, ignoring the piece after a final newline. -/
def linesOf (l : List Char) : List (List Char) :=
  let ps := splitLines l
  if ps.getLast? = some [] then ps.dropLast else ps


/-! ## Sprite timeline (`generateSpriteSheet`) -/

/-- One VTT timeline entry: the covered time range and the tile position. -/
structure SpriteEntry where
  startTime : Rat
  endTime : Rat
  x : Nat
  y : Nat
deriving DecidableEq

/-- `thumbnailWidth = 160`. -/
def thumbnailWidth : Nat := 160

/-- `thumbnailHeight = 90`. -/
def thumbnailHeight : Nat := 90

/-- `intervalInSeconds = 5`. -/
def intervalInSeconds : Nat := 5

/-- `cols`, the first component of `gridLayout = '10x10'`. -/
def spriteCols : Nat := 10

/-- `numberOfTiles = Math.ceil(videoDuration / intervalInSeconds)`. -/
def numberOfTiles (duration : Rat) : Int :=
  Int.ceil (duration / (intervalInSeconds : Rat))

/-- The tile loop of `generateSpriteSheet`: for `0 ≤ i < numberOfTiles`,
`startTime = i * interval`, `endTime = min((i+1) * interval, duration)`,
`x = (i % cols) * thumbnailWidth`, `y = floor(i / cols) * thumbnailHeight`. -/
def spriteTimeline (duration : Rat) : List SpriteEntry :=
  (List.range (numberOfTiles duration).toNat).map fun (i : Nat) =>
    { startTime := (i : Rat) * (intervalInSeconds : Rat)
      endTime := min (((i : Rat) + 1) * (intervalInSeconds : Rat)) duration
      x := (i % spriteCols) * thumbnailWidth
      y := (i / spriteCols) * thumbnailHeight }

/-! ## Claim C5 — sprite timeline entries -/

/-- C5: for a positive duration `D`, interval 5, 10 columns and 160×90
tiles, the timeline has exactly `⌈D / 5⌉` entries, and entry `i` covers
`[5i, min(5(i+1), D))` at tile position `x = (i mod 10) · 160`,
`y = ⌊i / 10⌋ · 90`. -/
theorem c5_sprite_timeline (D : Rat) (hD : 0 < D) :
    (((spriteTimeline D).length : Int) = Int.ceil (D / 5)) ∧
      ∀ i (h : i < (spriteTimeline D).length),
        (spriteTimeline D)[i] =
          ⟨(i : Rat) * 5, min (((i : Rat) + 1) * 5) D,
            (i % 10) * 160, (i / 10) * 90⟩ := by
  have hnum : numberOfTiles D = Int.ceil (D / 5) := by
    rw [numberOfTiles, intervalInSeconds]
    norm_num
  constructor
  · rw [spriteTimeline, List.length_map, List.length_range, hnum,
      Int.toNat_of_nonneg]
    have : (0 : Int) < Int.ceil (D / 5) := by
      rw [Int.ceil_pos]
      positivity
    omega
  · intro i h
    rw [spriteTimeline, List.length_map, List.length_range] at h
    simp only [spriteTimeline, List.getElem_map, List.getElem_range]
    rw [intervalInSeconds, spriteCols, thumbnailWidth, thumbnailHeight]
    norm_num

/-- The sprite loop at the spec's example `D = 12`: three entries covering
`[0,5)`, `[5,10)`, `[10,12)` at `(0,0)`, `(160,0)`, `(320,0)`. -/
theorem spriteTimeline_twelve :
    spriteTimeline 12 =
      [⟨0, 5, 0, 0⟩, ⟨5, 10, 160, 0⟩, ⟨10, 12, 320, 0⟩] := by
  have h3 : numberOfTiles 12 = 3 := by
    rw [numberOfTiles, intervalInSeconds]
    norm_num [Int.ceil_eq_iff]
  rw [spriteTimeline, h3, show (3 : Int).toNat = 3 from rfl,
    show List.range 3 = [0, 1, 2] from rfl]
  norm_num [intervalInSeconds, spriteCols, thumbnailWidth,
    thumbnailHeight, SpriteEntry.mk.injEq, min_def]

/-- Witness for C5 at the spec's example `D = 12`. -/
theorem c5_witness :
    (0 : Rat) < 12 ∧
      ((((spriteTimeline 12).length : Int) = Int.ceil ((12 : Rat) / 5)) ∧
        ∀ i (h : i < (spriteTimeline 12).length),
          (spriteTimeline 12)[i] =
            ⟨(i : Rat) * 5, min (((i : Rat) + 1) * 5) 12,
              (i % 10) * 160, (i / 10) * 90⟩) :=
  ⟨by norm_num, c5_sprite_timeline 12 (by norm_num)⟩

/-! ## Claim C6 — manifest bandwidth -/

/-- Value of a compact bitrate unit as the spec words it: a digit run
followed by the unit `k`, worth a thousand times the digit run. -/
def compactKValue (s : List Char) : Option Nat :=
  if s.getLast? = some 'k' ∧ ¬ s.dropLast.isEmpty = true ∧
      (∀ c ∈ s.dropLast, '0' ≤ c ∧ c ≤ '9') then
    some (digitsVal s.dropLast * 1000)
  else none

/-- C6: for every catalog profile, the manifest bandwidth is the parsed
compact video bitrate plus the parsed compact audio bitrate, and the value
appears verbatim in that profile's stream-info line of the master
playlist. -/
theorem c6_bandwidth_sum (i : Nat) (h : i < RESOLUTIONS.length) :
    ∃ v a : Nat,
      compactKValue ((RESOLUTIONS.getD i ⟨[], 0, 0, [], []⟩).bv) = some v ∧
      compactKValue ((RESOLUTIONS.getD i ⟨[], 0, 0, [], []⟩).ba) = some a ∧
      bandwidthOf (RESOLUTIONS.getD i ⟨[], 0, 0, [], []⟩) =
        some ((v : Int) + (a : Int)) ∧
      containsSub (chars "BANDWIDTH=" ++ natText (v + a))
        ((linesOf (createMasterPlaylist RESOLUTIONS)).getD (2 + 2 * i) [])
        = true := by
  have h3 : i < 3 := by simpa [RESOLUTIONS] using h
  match i, h3 with
  | 0, _ => exact ⟨800000, 96000, by decide, by decide, by decide, by decide⟩
  | 1, _ => exact ⟨1400000, 128000, by decide, by decide, by decide, by decide⟩
  | 2, _ => exact ⟨2800000, 128000, by decide, by decide, by decide, by decide⟩
  | n + 3, hh => exact absurd hh (by omega)

/-- Witness for C6 at the `360p` profile: `800k + 96k = 896000`. -/
theorem c6_witness :
    bandwidthOf ⟨chars "360p", 640, 360, chars "800k", chars "96k"⟩ =
        some 896000 ∧
      (∃ v a : Nat,
        compactKValue ((RESOLUTIONS.getD 0 ⟨[], 0, 0, [], []⟩).bv) = some v ∧
        compactKValue ((RESOLUTIONS.getD 0 ⟨[], 0, 0, [], []⟩).ba) = some a ∧
        bandwidthOf (RESOLUTIONS.getD 0 ⟨[], 0, 0, [], []⟩) =
          some ((v : Int) + (a : Int)) ∧
        containsSub (chars "BANDWIDTH=" ++ natText (v + a))
          ((linesOf (createMasterPlaylist RESOLUTIONS)).getD (2 + 2 * 0) [])
          = true) :=
  ⟨by decide, c6_bandwidth_sum 0 (by decide)⟩

/-! ## Claim C7 — master manifest layout -/

/-- The layout the claim asserts: one header line, then two lines per
profile (a stream-info line carrying `BANDWIDTH` and `RESOLUTION`, then the
relative path to the rendition playlist). -/
def c7ClaimShape (content : List Char) (rs : List Resolution) : Prop :=
  (linesOf content).length = 1 + 2 * rs.length ∧
  ∀ i, i < rs.length →
    containsSub (chars "BANDWIDTH=")
        ((linesOf content).getD (1 + 2 * i) []) = true ∧
      containsSub (chars "RESOLUTION=")
        ((linesOf content).getD (1 + 2 * i) []) = true ∧
      (linesOf content).getD (2 + 2 * i) [] =
        (rs.getD i ⟨[], 0, 0, [], []⟩).name ++ chars "/playlist.m3u8"

/-- C7 counterexample: the generated master playlist does not have the
one-header-line layout — it has two header lines (`#EXTM3U` and
`#EXT-X-VERSION:3`), so its line count is 8, not `1 + 2·3`. -/
theorem c7_counterexample :
    ¬ c7ClaimShape (createMasterPlaylist RESOLUTIONS) RESOLUTIONS :=
  fun hshape => absurd hshape.1 (by decide)

/-- C7 amended: the master manifest is two header lines followed by, per
catalog profile in order, a stream-info line carrying that profile's
BANDWIDTH and RESOLUTION and then the relative path to its playlist. -/
theorem c7_manifest_lines :
    linesOf (createMasterPlaylist RESOLUTIONS) =
      [chars "#EXTM3U",
       chars "#EXT-X-VERSION:3",
       chars "#EXT-X-STREAM-INF:BANDWIDTH=896000,RESOLUTION=640x360",
       chars "360p/playlist.m3u8",
       chars "#EXT-X-STREAM-INF:BANDWIDTH=1528000,RESOLUTION=854x480",
       chars "480p/playlist.m3u8",
       chars "#EXT-X-STREAM-INF:BANDWIDTH=2928000,RESOLUTION=1280x720",
       chars "720p/playlist.m3u8"] := by
  decide


/-! ## Claim C10 — `formatTime` zero-padded output -/

/-- JS `a % b` for the non-negative operands used here (`a - b * ⌊a / b⌋`;
JS truncated remainder and floored remainder coincide when `a ≥ 0, b > 0`). -/
def tmod (a b : Rat) : Rat := a - b * ((Int.floor (a / b) : Int) : Rat)

/-- JS `s.toFixed(3)` rounding for a non-negative value: the integer `n`
with `n / 1000` closest to `s`, larger `n` on ties. -/
def fixed3 (s : Rat) : Int := Int.floor (s * 1000 + 1 / 2)

/-- JS `String.prototype.padStart(k, c)`. -/
def padStart (k : Nat) (c : Char) (l : List Char) : List Char :=
  List.replicate (k - l.length) c ++ l

/-- `formatTime` from `src/job/index.js`, for the non-negative times the
sprite loop passes: `hours = Math.floor(t/3600)`,
`minutes = Math.floor((t % 3600) / 60)`, `seconds = t % 60`; the output is
`pad2(hours) : pad2(minutes) : pad6(seconds.toFixed(3))`. -/
def formatTime (t : Rat) : List Char :=
  let hours : Int := Int.floor (t / 3600)
  let minutes : Int := Int.floor (tmod t 3600 / 60)
  let n : Int := fixed3 (tmod t 60)
  padStart 2 '0' (natText hours.toNat) ++
    ':' :: padStart 2 '0' (natText minutes.toNat) ++
    ':' :: padStart 6 '0'
      (natText (n.toNat / 1000) ++ '.' :: padStart 3 '0' (natText (n.toNat % 1000)))

/-- A decimal digit character. -/
def isDigitCh (c : Char) : Bool := '0' ≤ c && c ≤ '9'

/-- The zero-padded `HH:MM:SS.mmm` shape: exactly twelve characters,
digits in the `HH`, `MM`, `SS`, `mmm` positions, `':'` and `'.'` between. -/
def isHHMMSSmmm : List Char → Bool
  | [h1, h2, c1, m1, m2, c2, s1, s2, d, f1, f2, f3] =>
    isDigitCh h1 && isDigitCh h2 && (c1 == ':') && isDigitCh m1 &&
      isDigitCh m2 && (c2 == ':') && isDigitCh s1 && isDigitCh s2 &&
      (d == '.') && isDigitCh f1 && isDigitCh f2 && isDigitCh f3
  | _ => false

theorem formatTime_100h : formatTime 360000 = chars "100:00:00.000" := by
  have hflo : Int.floor ((360000 : Rat) / 3600) = 100 := by
    norm_num [Int.floor_eq_iff]
  have htm : tmod 360000 3600 = 0 := by
    rw [tmod, hflo]
    norm_num
  have htm60 : tmod (360000 : Rat) 60 = 0 := by
    rw [tmod, show ((360000 : Rat) / 60) = 6000 by norm_num]
    norm_num [Int.floor_intCast]
  rw [formatTime]
  rw [hflo, htm, htm60]
  norm_num [fixed3, Int.floor_eq_iff]
  decide


/-- Digit characters come out of `natDigitsAux`, at most `k` of them for
values below `10^k`, and at least one. -/
theorem natDigitsAux_props :
    ∀ fuel n k, n < fuel → n < 10 ^ k → 1 ≤ k →
      (natDigitsAux fuel n).length ≤ k ∧ 1 ≤ (natDigitsAux fuel n).length ∧
        ∀ c ∈ natDigitsAux fuel n, isDigitCh c = true := by
  intro fuel
  induction fuel with
  | zero => intro n k h; omega
  | succ fuel ih =>
    intro n k hf hk h1
    by_cases hn : n < 10
    · rw [natDigitsAux, if_pos hn]
      refine ⟨by simpa using h1, by simp, ?_⟩
      intro c hc
      simp only [List.mem_singleton] at hc
      subst hc
      interval_cases n <;> decide
    · rw [natDigitsAux, if_neg hn]
      have hd1 : n / 10 < fuel := by omega
      have hk2 : 2 ≤ k := by
        by_contra hlt
        have : k = 1 := by omega
        subst this
        simp at hk
        omega
      have hd2 : n / 10 < 10 ^ (k - 1) := by
        have h10 : 10 ^ k = 10 * 10 ^ (k - 1) := by
          conv_lhs => rw [show k = (k - 1) + 1 by omega]
          rw [pow_succ]
          ring
        rw [h10] at hk
        omega
      obtain ⟨hl1, hl2, hl3⟩ := ih (n / 10) (k - 1) hd1 hd2 (by omega)
      refine ⟨?_, ?_, ?_⟩
      · rw [List.length_append, List.length_singleton]
        omega
      · rw [List.length_append, List.length_singleton]
        omega
      · intro c hc
        rw [List.mem_append, List.mem_singleton] at hc
        rcases hc with hc | hc
        · exact hl3 c hc
        · subst hc
          have hm : n % 10 < 10 := Nat.mod_lt _ (by omega)
          interval_cases hmod : n % 10 <;> simp_all <;> decide

/-- `natText` of a value below `10^k` is between 1 and `k` digit
characters. -/
theorem natText_props {n k : Nat} (hk : n < 10 ^ k) (h1 : 1 ≤ k) :
    (natText n).length ≤ k ∧ 1 ≤ (natText n).length ∧
      ∀ c ∈ natText n, isDigitCh c = true :=
  natDigitsAux_props (n + 1) n k (by omega) hk h1

/-- `padStart 2` of a one- or two-digit string is exactly two digits. -/
theorem padStart2_shape {l : List Char} (h1 : 1 ≤ l.length)
    (h2 : l.length ≤ 2) (hd : ∀ c ∈ l, isDigitCh c = true) :
    ∃ a b, padStart 2 '0' l = [a, b] ∧ isDigitCh a = true ∧
      isDigitCh b = true := by
  match l, h1, h2 with
  | [a], _, _ =>
    exact ⟨'0', a, rfl, by decide, hd a (by simp)⟩
  | [a, b], _, _ =>
    exact ⟨a, b, rfl, hd a (by simp), hd b (by simp)⟩

/-- `padStart 3` of an up-to-three-digit string is exactly three digits. -/
theorem padStart3_shape {l : List Char} (h1 : 1 ≤ l.length)
    (h2 : l.length ≤ 3) (hd : ∀ c ∈ l, isDigitCh c = true) :
    ∃ a b c, padStart 3 '0' l = [a, b, c] ∧ isDigitCh a = true ∧
      isDigitCh b = true ∧ isDigitCh c = true := by
  match l, h1, h2 with
  | [a], _, _ =>
    exact ⟨'0', '0', a, rfl, by decide, by decide, hd a (by simp)⟩
  | [a, b], _, _ =>
    exact ⟨'0', a, b, rfl, by decide, hd a (by simp), hd b (by simp)⟩
  | [a, b, c], _, _ =>
    exact ⟨a, b, c, rfl, hd a (by simp), hd b (by simp), hd c (by simp)⟩


/-- Bounds for the modelled JS remainder. -/
theorem tmod_bounds {a b : Rat} (hb : 0 < b) :
    0 ≤ tmod a b ∧ tmod a b < b := by
  have hfr : tmod a b = b * Int.fract (a / b) := by
    rw [tmod, Int.fract]
    field_simp
  constructor
  · rw [hfr]
    exact mul_nonneg hb.le (Int.fract_nonneg _)
  · rw [hfr]
    calc b * Int.fract (a / b) < b * 1 :=
          mul_lt_mul_of_pos_left (Int.fract_lt_one _) hb
    _ = b := mul_one b

/-- Padding the seconds block to six characters yields
`two digits, '.', three digits`. -/
theorem padStart6_shape {ip : List Char} (f1 f2 f3 : Char)
    (h1 : 1 ≤ ip.length) (h2 : ip.length ≤ 2)
    (hd : ∀ c ∈ ip, isDigitCh c = true) :
    ∃ s1 s2, padStart 6 '0' (ip ++ '.' :: [f1, f2, f3]) =
        [s1, s2, '.', f1, f2, f3] ∧ isDigitCh s1 = true ∧
        isDigitCh s2 = true := by
  match ip, h1, h2 with
  | [a], _, _ => exact ⟨'0', a, rfl, by decide, hd a (by simp)⟩
  | [a, b], _, _ => exact ⟨a, b, rfl, hd a (by simp), hd b (by simp)⟩

/-- C10 amended: every non-negative entry-boundary time below one hundred
hours (360000 s) is formatted as zero-padded `HH:MM:SS.mmm` — two-digit
hours, two-digit minutes, two-digit whole seconds, three-digit
milliseconds; at or above one hundred hours the hour field grows beyond
two digits. -/
theorem c10_time_format (t : Rat) (h0 : 0 ≤ t) (hlt : t < 360000) :
    isHHMMSSmmm (formatTime t) = true := by
  -- hours below 100
  have hh0 : 0 ≤ Int.floor (t / 3600) := Int.le_floor.mpr (by positivity)
  have hh100 : Int.floor (t / 3600) < 100 := by
    rw [Int.floor_lt]
    push_cast
    linarith
  have hhN : (Int.floor (t / 3600)).toNat < 10 ^ 2 := by
    have : (10 : Nat) ^ 2 = 100 := by norm_num
    omega
  -- minutes below 60
  obtain ⟨hm1, hm2⟩ := tmod_bounds (a := t) (b := 3600) (by norm_num)
  have hmin0 : 0 ≤ Int.floor (tmod t 3600 / 60) := Int.le_floor.mpr (by positivity)
  have hmin60 : Int.floor (tmod t 3600 / 60) < 60 := by
    rw [Int.floor_lt]
    push_cast
    linarith
  have hminN : (Int.floor (tmod t 3600 / 60)).toNat < 10 ^ 2 := by
    have : (10 : Nat) ^ 2 = 100 := by norm_num
    omega
  -- rounded seconds at most 60000
  obtain ⟨hs1, hs2⟩ := tmod_bounds (a := t) (b := 60) (by norm_num)
  have hn0 : 0 ≤ fixed3 (tmod t 60) := by
    rw [fixed3]
    exact Int.le_floor.mpr (by push_cast; linarith)
  have hn6 : fixed3 (tmod t 60) ≤ 60000 := by
    have : fixed3 (tmod t 60) < 60001 := by
      rw [fixed3, Int.floor_lt]
      push_cast
      linarith
    omega
  have hipN : (fixed3 (tmod t 60)).toNat / 1000 < 10 ^ 2 := by
    have : (10 : Nat) ^ 2 = 100 := by norm_num
    omega
  have hfrN : (fixed3 (tmod t 60)).toNat % 1000 < 10 ^ 3 := by
    have h3 : (10 : Nat) ^ 3 = 1000 := by norm_num
    have := Nat.mod_lt (fixed3 (tmod t 60)).toNat (show 0 < 1000 by norm_num)
    omega
  -- the three blocks
  obtain ⟨hHle, hHge, hHdig⟩ := natText_props hhN (by norm_num)
  obtain ⟨a1, a2, hA, hA1, hA2⟩ := padStart2_shape hHge hHle hHdig
  obtain ⟨hMle, hMge, hMdig⟩ := natText_props hminN (by norm_num)
  obtain ⟨b1, b2, hB, hB1, hB2⟩ := padStart2_shape hMge hMle hMdig
  obtain ⟨hIle, hIge, hIdig⟩ := natText_props hipN (by norm_num)
  obtain ⟨hFle, hFge, hFdig⟩ := natText_props hfrN (by norm_num)
  obtain ⟨g1, g2, g3, hG, hG1, hG2, hG3⟩ := padStart3_shape hFge hFle hFdig
  have hfmt : formatTime t =
      padStart 2 '0' (natText (Int.floor (t / 3600)).toNat) ++
        ':' :: padStart 2 '0' (natText (Int.floor (tmod t 3600 / 60)).toNat) ++
        ':' :: padStart 6 '0'
          (natText ((fixed3 (tmod t 60)).toNat / 1000) ++ '.' ::
            padStart 3 '0' (natText ((fixed3 (tmod t 60)).toNat % 1000))) := rfl
  rw [hfmt, hA, hB, hG]
  obtain ⟨s1, s2, hS, hS1, hS2⟩ :=
    padStart6_shape g1 g2 g3 hIge hIle hIdig
  rw [hS]
  show isHHMMSSmmm [a1, a2, ':', b1, b2, ':', s1, s2, '.', g1, g2, g3] = true
  rw [isHHMMSSmmm]
  simp [hA1, hA2, hB1, hB2, hS1, hS2, hG1, hG2, hG3]


/-- C10 counterexample: the boundary value 360000 s (one hundred hours;
it arises as `i · I` for entry `i = 72000`, as the second conjunct notes)
formats as `100:00:00.000`, whose hour field has three digits, so the
output is not the two-digit-hours `HH:MM:SS.mmm` shape. -/
theorem c10_counterexample :
    formatTime 360000 = chars "100:00:00.000" ∧
      (72000 : Rat) * 5 = 360000 ∧
      isHHMMSSmmm (formatTime 360000) = false := by
  refine ⟨formatTime_100h, by norm_num, ?_⟩
  rw [formatTime_100h]
  decide

/-- Witness for the amended C10 at the boundary time 12 s. -/
theorem c10_witness :
    (0 : Rat) ≤ 12 ∧ (12 : Rat) < 360000 ∧
      isHHMMSSmmm (formatTime 12) = true :=
  ⟨by norm_num, by norm_num, c10_time_format 12 (by norm_num) (by norm_num)⟩


/-! ## Dispatcher queue loop (`src/consumer/src/index.js` poller)

Per-message behaviour: an empty body or a `s3:TestEvent` body is logged and
the message deleted; otherwise each S3 record is processed in order — a
basename without the separator or a watermark-lookup miss is logged and the
message deleted, and an accepted record launches the container task and
deletes the message only after the launch call returned.  A throwing launch
call propagates out of the record loop to the outer catch, so processing of
that message stops with no further event.  `getWatermarkKeyForUser` maps
lookup errors and misses to `null`, hence the oracle returns an `Option`.
-/

/-- Externally visible per-message events, in order of occurrence (the
`console` logs of a decision, the `RunTask` call with its outcome, and the
`DeleteMessage` call). -/
inductive DEvent
  | skipTest
  | skipEmpty
  | rejectName (filename : List Char)
  | rejectWatermark (username : List Char)
  | launchCall (key : List Char) (ok : Bool)
  | deleteCall
deriving DecidableEq

/-- A decision in the claim's sense: a skip/reject, or a launch call that
returned successfully. -/
def isDecision : DEvent → Bool
  | .skipTest => true
  | .skipEmpty => true
  | .rejectName _ => true
  | .rejectWatermark _ => true
  | .launchCall _ ok => ok
  | .deleteCall => false

/-- A parsed message body: a malformed body (JSON.parse throws), the
synthetic test event, or an S3 notification with its decoded object keys. -/
inductive MessageBody
  | malformed
  | testEvent
  | s3 (keys : List (List Char))

/-- The record loop of `init`: `wm` is the watermark lookup, `launches i`
tells whether the `i`-th launch call of this message returns or throws. -/
def processRecords (wm : List Char → Option (List Char))
    (launches : Nat → Bool) : Nat → List (List Char) → List DEvent
  | _, [] => []
  | i, key :: rest =>
    if containsSub sep (basename key) = false then
      .rejectName (basename key) :: .deleteCall ::
        processRecords wm launches (i + 1) rest
    else
      match wm ((jsSplit (basename key)).getD 0 []) with
      | none =>
        .rejectWatermark ((jsSplit (basename key)).getD 0 []) :: .deleteCall ::
          processRecords wm launches (i + 1) rest
      | some _ =>
        if launches i then
          .launchCall key true :: .deleteCall ::
            processRecords wm launches (i + 1) rest
        else
          [.launchCall key false]

/-- The per-message part of `init` (`!message.Body`, the test-event check,
then the record loop). -/
def processQueueMessage (wm : List Char → Option (List Char))
    (launches : Nat → Bool) : Option MessageBody → List DEvent
  | none => [.skipEmpty, .deleteCall]
  | some .malformed => []
  | some .testEvent => [.skipTest, .deleteCall]
  | some (.s3 keys) => processRecords wm launches 0 keys

/-- In a trace built from `⟨decision, delete⟩` blocks, every delete call is
immediately preceded by a decision. -/
theorem block_delete_preceded {e : DEvent} (he : isDecision e = true)
    {t : List DEvent}
    (iht : ∀ i, t[i]? = some DEvent.deleteCall →
      ∃ d, t[i - 1]? = some d ∧ isDecision d = true ∧ 1 ≤ i) :
    ∀ i, (e :: DEvent.deleteCall :: t)[i]? = some DEvent.deleteCall →
      ∃ d, (e :: DEvent.deleteCall :: t)[i - 1]? = some d ∧
        isDecision d = true ∧ 1 ≤ i := by
  intro i h
  match i with
  | 0 =>
    rw [List.getElem?_cons_zero] at h
    injection h with h
    subst h
    exact absurd he (by decide)
  | 1 => exact ⟨e, rfl, he, by omega⟩
  | n + 2 =>
    have h' : t[n]? = some DEvent.deleteCall := by simpa using h
    obtain ⟨d, hd, hdec, hn⟩ := iht n h'
    refine ⟨d, ?_, hdec, by omega⟩
    match n, hn with
    | m + 1, _ => simpa using hd

/-- Every delete the record loop issues immediately follows a decision. -/
theorem processRecords_delete_after_decision
    (wm : List Char → Option (List Char)) (launches : Nat → Bool)
    (idx : Nat) (keys : List (List Char)) :
    ∀ i, (processRecords wm launches idx keys)[i]? = some DEvent.deleteCall →
      ∃ d, (processRecords wm launches idx keys)[i - 1]? = some d ∧
        isDecision d = true ∧ 1 ≤ i := by
  induction keys generalizing idx with
  | nil => intro i h; simp [processRecords] at h
  | cons key rest ih =>
    rw [processRecords]
    by_cases hsep : containsSub sep (basename key) = false
    · rw [if_pos hsep]
      exact block_delete_preceded
        (e := DEvent.rejectName (basename key)) rfl (ih (idx + 1))
    · rw [if_neg hsep]
      cases hwm : wm ((jsSplit (basename key)).getD 0 []) with
      | none =>
        exact block_delete_preceded
          (e := DEvent.rejectWatermark ((jsSplit (basename key)).getD 0 []))
          rfl (ih (idx + 1))
      | some w =>
        by_cases hl : launches idx
        · rw [if_pos hl]
          exact block_delete_preceded
            (e := DEvent.launchCall key true) rfl (ih (idx + 1))
        · rw [if_neg hl]
          intro i h
          match i with
          | 0 => exact absurd h (by simp)
          | n + 1 => exact absurd h (by simp)

/-- After a throwing launch call the record loop emits nothing further. -/
theorem processRecords_throw_terminal
    (wm : List Char → Option (List Char)) (launches : Nat → Bool)
    (idx : Nat) (keys : List (List Char)) :
    ∀ i key, (processRecords wm launches idx keys)[i]? =
        some (DEvent.launchCall key false) →
      (processRecords wm launches idx keys)[i + 1]? = none := by
  induction keys generalizing idx with
  | nil => intro i key h; simp [processRecords] at h
  | cons key rest ih =>
    rw [processRecords]
    by_cases hsep : containsSub sep (basename key) = false
    · rw [if_pos hsep]
      intro i k h
      match i with
      | 0 => exact absurd h (by simp)
      | 1 => exact absurd h (by simp)
      | n + 2 =>
        have h' := ih (idx + 1) n k (by simpa using h)
        simpa using h'
    · rw [if_neg hsep]
      cases hwm : wm ((jsSplit (basename key)).getD 0 []) with
      | none =>
        intro i k h
        match i with
        | 0 => exact absurd h (by simp)
        | 1 => exact absurd h (by simp)
        | n + 2 =>
          have h' := ih (idx + 1) n k (by simpa using h)
          simpa using h'
      | some w =>
        by_cases hl : launches idx
        · rw [if_pos hl]
          intro i k h
          match i with
          | 0 => exact absurd h (by simp)
          | 1 => exact absurd h (by simp)
          | n + 2 =>
            have h' := ih (idx + 1) n k (by simpa using h)
            simpa using h'
        · rw [if_neg hl]
          intro i k h
          match i with
          | 0 => rfl
          | n + 1 => exact absurd h (by simp)


/-! ## Claim C2 — acknowledgment only after a decision -/

/-- C2 counterexample: a two-record message whose first record launches
successfully (so the message is deleted) and whose second launch call
throws.  The trace contains both a delete call and a throwing launch call,
contradicting "for every message whose container launch call throws, the
Dispatcher never issues the delete call for that message". -/
theorem c2_counterexample :
    processQueueMessage (fun _ => some (chars "w.png"))
        (fun i => decide (i = 0))
        (some (.s3 [chars "a###b", chars "c###d"])) =
      [DEvent.launchCall (chars "a###b") true, DEvent.deleteCall,
        DEvent.launchCall (chars "c###d") false] ∧
    DEvent.deleteCall ∈ processQueueMessage (fun _ => some (chars "w.png"))
        (fun i => decide (i = 0))
        (some (.s3 [chars "a###b", chars "c###d"])) ∧
    DEvent.launchCall (chars "c###d") false ∈
      processQueueMessage (fun _ => some (chars "w.png"))
        (fun i => decide (i = 0))
        (some (.s3 [chars "a###b", chars "c###d"])) := by
  decide

/-- C2 amended: every delete call the Dispatcher issues immediately follows
a decision for one of the message's records (test event, empty body,
validation rejection, overlay miss, or a launch call that returned
successfully); a throwing launch call ends the processing of its message
with no further event, so in particular a single-record message whose
launch call throws is never deleted.  (A message carrying several records
can already have been deleted for an earlier record before a later launch
call throws.) -/
theorem c2_ack_only_after_decision
    (wm : List Char → Option (List Char)) (launches : Nat → Bool)
    (body : Option MessageBody) :
    (∀ i, (processQueueMessage wm launches body)[i]? = some DEvent.deleteCall →
        ∃ d, (processQueueMessage wm launches body)[i - 1]? = some d ∧
          isDecision d = true ∧ 1 ≤ i) ∧
    (∀ i key, (processQueueMessage wm launches body)[i]? =
        some (DEvent.launchCall key false) →
      (processQueueMessage wm launches body)[i + 1]? = none) ∧
    (∀ key w, body = some (.s3 [key]) →
        containsSub sep (basename key) = true →
        wm ((jsSplit (basename key)).getD 0 []) = some w →
        launches 0 = false →
        DEvent.deleteCall ∉ processQueueMessage wm launches body) := by
  refine ⟨?_, ?_, ?_⟩
  · match body with
    | none =>
      intro i h
      match i with
      | 0 => exact absurd h (by simp [processQueueMessage])
      | 1 => exact ⟨DEvent.skipEmpty, rfl, rfl, by omega⟩
      | n + 2 => exact absurd h (by simp [processQueueMessage])
    | some .malformed => intro i h; exact absurd h (by simp [processQueueMessage])
    | some .testEvent =>
      intro i h
      match i with
      | 0 => exact absurd h (by simp [processQueueMessage])
      | 1 => exact ⟨DEvent.skipTest, rfl, rfl, by omega⟩
      | n + 2 => exact absurd h (by simp [processQueueMessage])
    | some (.s3 keys) =>
      exact processRecords_delete_after_decision wm launches 0 keys
  · match body with
    | none =>
      intro i key h
      match i with
      | 0 => exact absurd h (by simp [processQueueMessage])
      | 1 => exact absurd h (by simp [processQueueMessage])
      | n + 2 => exact absurd h (by simp [processQueueMessage])
    | some .malformed => intro i key h; exact absurd h (by simp [processQueueMessage])
    | some .testEvent =>
      intro i key h
      match i with
      | 0 => exact absurd h (by simp [processQueueMessage])
      | 1 => exact absurd h (by simp [processQueueMessage])
      | n + 2 => exact absurd h (by simp [processQueueMessage])
    | some (.s3 keys) =>
      exact processRecords_throw_terminal wm launches 0 keys
  · intro key w hbody hsep hwm hl
    subst hbody
    rw [processQueueMessage, processRecords,
      if_neg (by simp [hsep]), hwm, if_neg (by simp [hl])]
    simp

/-- Witness for the amended C2: a single-record message whose launch call
throws is not deleted. -/
theorem c2_witness :
    DEvent.deleteCall ∉ processQueueMessage (fun _ => some (chars "w.png"))
      (fun _ => false) (some (.s3 [chars "a###b"])) :=
  (c2_ack_only_after_decision (fun _ => some (chars "w.png")) (fun _ => false)
      (some (.s3 [chars "a###b"]))).2.2
    (chars "a###b") (chars "w.png") rfl (by decide) rfl rfl


/-! ## Transcoding Job run protocol (`main` in `src/job/index.js`)

The `try` block runs, in order: `mkdir`, `downloadFile`, the
`Promise.all` join of the three `transcodeToHLS` tasks and
`generateSpriteSheet`, `createMasterPlaylist`, `uploadDirectoryToS3`, then
the COMPLETED metadata write and manifest upload.  The `catch` block writes
the FAILED metadata record with the captured error message, uploads a
FAILED `manifest.json`, and re-throws, so `main().catch(() => process.exit(1))`
exits with code 1.  The `finally` block always removes the output directory
and then the source file, each in its own `try`/`catch` that only logs.
`Promise.all` surfaces a failing task's rejection; the model surfaces the
first failing task in list order, and the metadata/manifest writes of the
handlers are recorded as effects. -/

/-- Result of one external step: `ok` or a thrown error message. -/
def StepResult := Except (List Char) Unit

/-- Oracles for the fallible pipeline stages of one run. -/
structure StageResults where
  mkdirR : StepResult
  downloadR : StepResult
  encodeRs : List StepResult
  spriteR : StepResult
  masterR : StepResult
  uploadR : StepResult

/-- Oracles for the two cleanup steps. -/
structure CleanupResults where
  rmOutputR : StepResult
  rmSourceR : StepResult

/-- Externally visible effects of one Job run, in order. -/
inductive JobEvent
  | dbWrite (videoId : List Char) (status : List Char)
      (errorMessage : Option (List Char))
  | manifestUpload (status : List Char) (error : Option (List Char))
  | rmOutputAttempt
  | rmOutputWarn (msg : List Char)
  | rmSourceAttempt
  | rmSourceWarn (msg : List Char)
deriving DecidableEq

/-- The first error among the sequential/joined steps, if any. -/
def firstErr : List StepResult → Option (List Char)
  | [] => none
  | Except.ok _ :: t => firstErr t
  | Except.error e :: _ => some e

/-- The error that aborts the `try` block, if any stage fails. -/
def pipelineOutcome (s : StageResults) : Option (List Char) :=
  firstErr ([s.mkdirR, s.downloadR] ++ s.encodeRs ++
    [s.spriteR, s.masterR, s.uploadR])

/-- The `finally` block: always attempt both removals, log a warning when
one fails, never re-throw. -/
def cleanupEvents (c : CleanupResults) : List JobEvent :=
  JobEvent.rmOutputAttempt ::
    (match c.rmOutputR with
      | Except.ok _ => []
      | Except.error m => [JobEvent.rmOutputWarn m]) ++
    JobEvent.rmSourceAttempt ::
    (match c.rmSourceR with
      | Except.ok _ => []
      | Except.error m => [JobEvent.rmSourceWarn m])

/-- The effects and exit code of one Job run. -/
structure JobRun where
  events : List JobEvent
  exitCode : Nat
deriving DecidableEq

/-- One run of `main` for `VIDEO_KEY = key` under the given oracles. -/
def runJob (key : List Char) (s : StageResults) (c : CleanupResults) :
    JobRun :=
  match pipelineOutcome s with
  | none =>
    { events := [JobEvent.dbWrite (parseName key) (chars "COMPLETED") none,
        JobEvent.manifestUpload (chars "COMPLETED") none] ++ cleanupEvents c
      exitCode := 0 }
  | some e =>
    { events := [JobEvent.dbWrite (parseName key) (chars "FAILED") (some e),
        JobEvent.manifestUpload (chars "FAILED") (some e)] ++ cleanupEvents c
      exitCode := 1 }

/-! ## Claim C8 — failure handling -/

/-- C8: whenever any pipeline stage fails with error `e`, the run writes
the FAILED status with that captured message for the run's video identifier
(`path.parse(VIDEO_KEY).name`), uploads the FAILED result file, and the
process exits with the non-zero code 1. -/
theorem c8_failure_recorded (key : List Char) (s : StageResults)
    (c : CleanupResults) (e : List Char)
    (h : pipelineOutcome s = some e) :
    JobEvent.dbWrite (parseName key) (chars "FAILED") (some e) ∈
        (runJob key s c).events ∧
      JobEvent.manifestUpload (chars "FAILED") (some e) ∈
        (runJob key s c).events ∧
      (runJob key s c).exitCode = 1 := by
  rw [runJob, h]
  refine ⟨?_, ?_, rfl⟩
  · simp
  · simp

/-- Witness for C8: a run whose download throws. -/
theorem c8_witness :
    pipelineOutcome
        ⟨Except.ok (), Except.error (chars "download failed"),
          [Except.ok (), Except.ok (), Except.ok ()],
          Except.ok (), Except.ok (), Except.ok ()⟩ =
      some (chars "download failed") ∧
    (JobEvent.dbWrite (parseName (chars "alice###trip.mp4")) (chars "FAILED")
          (some (chars "download failed")) ∈
        (runJob (chars "alice###trip.mp4")
          ⟨Except.ok (), Except.error (chars "download failed"),
            [Except.ok (), Except.ok (), Except.ok ()],
            Except.ok (), Except.ok (), Except.ok ()⟩
          ⟨Except.ok (), Except.ok ()⟩).events ∧
      JobEvent.manifestUpload (chars "FAILED")
          (some (chars "download failed")) ∈
        (runJob (chars "alice###trip.mp4")
          ⟨Except.ok (), Except.error (chars "download failed"),
            [Except.ok (), Except.ok (), Except.ok ()],
            Except.ok (), Except.ok (), Except.ok ()⟩
          ⟨Except.ok (), Except.ok ()⟩).events ∧
      (runJob (chars "alice###trip.mp4")
          ⟨Except.ok (), Except.error (chars "download failed"),
            [Except.ok (), Except.ok (), Except.ok ()],
            Except.ok (), Except.ok (), Except.ok ()⟩
          ⟨Except.ok (), Except.ok ()⟩).exitCode = 1) :=
  ⟨rfl, c8_failure_recorded (chars "alice###trip.mp4") _ _ _ rfl⟩

/-! ## Claim C9 — cleanup always runs and never changes the outcome -/

/-- Events that constitute the run's outcome (status writes and result
uploads), as opposed to cleanup bookkeeping. -/
def isOutcomeEvent : JobEvent → Bool
  | JobEvent.dbWrite _ _ _ => true
  | JobEvent.manifestUpload _ _ => true
  | _ => false

/-- Both cleanup attempts always appear. -/
theorem mem_rmOutputAttempt (cc : CleanupResults) :
    JobEvent.rmOutputAttempt ∈ cleanupEvents cc := by
  obtain ⟨ro, rs⟩ := cc
  cases ro <;> cases rs <;> simp [cleanupEvents]

/-- The source-file removal attempt always appears. -/
theorem mem_rmSourceAttempt (cc : CleanupResults) :
    JobEvent.rmSourceAttempt ∈ cleanupEvents cc := by
  obtain ⟨ro, rs⟩ := cc
  cases ro <;> cases rs <;> simp [cleanupEvents]

/-- A failed output-tree removal is logged. -/
theorem mem_rmOutputWarn (cc : CleanupResults) (m : List Char)
    (h : cc.rmOutputR = Except.error m) :
    JobEvent.rmOutputWarn m ∈ cleanupEvents cc := by
  obtain ⟨ro, rs⟩ := cc
  cases ro with
  | ok u => exact absurd h (by simp)
  | error a =>
    have ha : a = m := by
      injection h
    subst ha
    cases rs <;> simp [cleanupEvents]

/-- A failed source-file removal is logged. -/
theorem mem_rmSourceWarn (cc : CleanupResults) (m : List Char)
    (h : cc.rmSourceR = Except.error m) :
    JobEvent.rmSourceWarn m ∈ cleanupEvents cc := by
  obtain ⟨ro, rs⟩ := cc
  cases rs with
  | ok u => exact absurd h (by simp)
  | error a =>
    have ha : a = m := by
      injection h
    subst ha
    cases ro <;> simp [cleanupEvents]

/-- Cleanup contributes no outcome events. -/
theorem cleanup_no_outcome (cc : CleanupResults) :
    (cleanupEvents cc).filter isOutcomeEvent = [] := by
  obtain ⟨ro, rs⟩ := cc
  cases ro <;> cases rs <;> simp [cleanupEvents, isOutcomeEvent]

/-- C9: on every run both cleanup steps execute regardless of the pipeline
outcome; a cleanup error is logged as a warning and never re-thrown; and
the run's exit code and outcome events are the same function of the stage
results whatever the cleanup results are. -/
theorem c9_cleanup_always (key : List Char) (s : StageResults)
    (c c' : CleanupResults) :
    (JobEvent.rmOutputAttempt ∈ (runJob key s c).events ∧
      JobEvent.rmSourceAttempt ∈ (runJob key s c).events) ∧
    (∀ m, c.rmOutputR = Except.error m →
      JobEvent.rmOutputWarn m ∈ (runJob key s c).events) ∧
    (∀ m, c.rmSourceR = Except.error m →
      JobEvent.rmSourceWarn m ∈ (runJob key s c).events) ∧
    (runJob key s c).exitCode = (runJob key s c').exitCode ∧
    (runJob key s c).events.filter isOutcomeEvent =
      (runJob key s c').events.filter isOutcomeEvent := by
  have hev : ∀ cc : CleanupResults, (runJob key s cc).events =
      (match pipelineOutcome s with
        | none => [JobEvent.dbWrite (parseName key) (chars "COMPLETED") none,
            JobEvent.manifestUpload (chars "COMPLETED") none]
        | some e => [JobEvent.dbWrite (parseName key) (chars "FAILED") (some e),
            JobEvent.manifestUpload (chars "FAILED") (some e)]) ++
        cleanupEvents cc := by
    intro cc
    rw [runJob]
    cases pipelineOutcome s <;> rfl
  have hexit : ∀ cc : CleanupResults, (runJob key s cc).exitCode =
      (match pipelineOutcome s with | none => 0 | some _ => 1) := by
    intro cc
    rw [runJob]
    cases pipelineOutcome s <;> rfl
  refine ⟨⟨?_, ?_⟩, ?_, ?_, ?_, ?_⟩
  · rw [hev]
    exact List.mem_append_right _ (mem_rmOutputAttempt c)
  · rw [hev]
    exact List.mem_append_right _ (mem_rmSourceAttempt c)
  · intro m hm
    rw [hev]
    exact List.mem_append_right _ (mem_rmOutputWarn c m hm)
  · intro m hm
    rw [hev]
    exact List.mem_append_right _ (mem_rmSourceWarn c m hm)
  · rw [hexit, hexit]
  · rw [hev, hev, List.filter_append, List.filter_append,
      cleanup_no_outcome, cleanup_no_outcome]

/-- Witness for C9: a successful pipeline with a failing output-directory
removal still exits 0 with both cleanup steps attempted and the failure
only logged. -/
theorem c9_witness :
    (JobEvent.rmOutputAttempt ∈
        (runJob (chars "alice###trip.mp4")
          ⟨Except.ok (), Except.ok (),
            [Except.ok (), Except.ok (), Except.ok ()],
            Except.ok (), Except.ok (), Except.ok ()⟩
          ⟨Except.error (chars "EBUSY"), Except.ok ()⟩).events ∧
      JobEvent.rmSourceAttempt ∈
        (runJob (chars "alice###trip.mp4")
          ⟨Except.ok (), Except.ok (),
            [Except.ok (), Except.ok (), Except.ok ()],
            Except.ok (), Except.ok (), Except.ok ()⟩
          ⟨Except.error (chars "EBUSY"), Except.ok ()⟩).events) ∧
    (∀ m, (⟨Except.error (chars "EBUSY"), Except.ok ()⟩ :
        CleanupResults).rmOutputR = Except.error m →
      JobEvent.rmOutputWarn m ∈
        (runJob (chars "alice###trip.mp4")
          ⟨Except.ok (), Except.ok (),
            [Except.ok (), Except.ok (), Except.ok ()],
            Except.ok (), Except.ok (), Except.ok ()⟩
          ⟨Except.error (chars "EBUSY"), Except.ok ()⟩).events) ∧
    (∀ m, (⟨Except.error (chars "EBUSY"), Except.ok ()⟩ :
        CleanupResults).rmSourceR = Except.error m →
      JobEvent.rmSourceWarn m ∈
        (runJob (chars "alice###trip.mp4")
          ⟨Except.ok (), Except.ok (),
            [Except.ok (), Except.ok (), Except.ok ()],
            Except.ok (), Except.ok (), Except.ok ()⟩
          ⟨Except.error (chars "EBUSY"), Except.ok ()⟩).events) ∧
    (runJob (chars "alice###trip.mp4")
        ⟨Except.ok (), Except.ok (),
          [Except.ok (), Except.ok (), Except.ok ()],
          Except.ok (), Except.ok (), Except.ok ()⟩
        ⟨Except.error (chars "EBUSY"), Except.ok ()⟩).exitCode =
      (runJob (chars "alice###trip.mp4")
        ⟨Except.ok (), Except.ok (),
          [Except.ok (), Except.ok (), Except.ok ()],
          Except.ok (), Except.ok (), Except.ok ()⟩
        ⟨Except.ok (), Except.ok ()⟩).exitCode ∧
    (runJob (chars "alice###trip.mp4")
        ⟨Except.ok (), Except.ok (),
          [Except.ok (), Except.ok (), Except.ok ()],
          Except.ok (), Except.ok (), Except.ok ()⟩
        ⟨Except.error (chars "EBUSY"), Except.ok ()⟩).events.filter
        isOutcomeEvent =
      (runJob (chars "alice###trip.mp4")
        ⟨Except.ok (), Except.ok (),
          [Except.ok (), Except.ok (), Except.ok ()],
          Except.ok (), Except.ok (), Except.ok ()⟩
        ⟨Except.ok (), Except.ok ()⟩).events.filter isOutcomeEvent :=
  c9_cleanup_always (chars "alice###trip.mp4") _ _ _

end StreamFlow
